import Mathlib

/-!
# Column rewriting tool (`c++17_challenge/Tool/Tool/main.cpp`)

A shallow embedding of the four functions of `main.cpp`:
`get_col_index`, `get_fields`, `construct_line` and `main`.

Modelling conventions.

* `std::string` is a `List Char` (one `Char` per byte), `std::vector<std::string>`
  is a `List (List Char)`.
* An input stream (`std::istringstream`, `std::ifstream`) is the list of the
  characters not yet read together with its `eofbit` and `failbit`.
* `std::getline(is, str, delim)` is the function `getline`; the condition of
  `while(std::getline(...))` is `!fail()`.
* The `while` loops take a fuel argument; the callers pass the number of unread
  characters plus one, which is shown to be enough (`get_fields_loop_fuel`,
  `get_col_index_loop_fuel`, `row_loop_fuel`).
* Undefined behaviour (indexing a vector past its end, overwriting the last
  character of an empty string) is the result `none`.
* `int count` is a 32-bit two's-complement integer: `++count` is an addition
  followed by `wrap_int32`, so that it goes from 2147483647 to -2147483648 as
  the compiled program does.
-/

namespace Tool

/-- The C++ `std::string`, a sequence of bytes. -/
abbrev Str := List Char

/-- State of an input stream: the unread characters and the two state bits
that `std::getline` reads and sets. -/
structure IStream where
  buf : Str
  eofbit : Bool
  failbit : Bool
deriving DecidableEq, Repr

/-- A freshly constructed `std::istringstream iss(s)`. -/
def IStream.ofStr (s : Str) : IStream := ⟨s, false, false⟩

/-- The character extraction of `std::getline`: reads characters up to the
first `delim`. Returns the characters stored, the characters left in the
stream, and whether the delimiter was met (it is then extracted and not
stored); `false` means the end of the stream was reached. -/
def extract (delim : Char) : Str → Str × Str × Bool
  | [] => ([], [], false)
  | c :: cs =>
    if c = delim then ([], cs, true)
    else
      let r := extract delim cs
      (c :: r.1, r.2.1, r.2.2)

/-- The call `std::getline(is, str, delim)`. When the stream is not good the
sentry fails: `failbit` is set and `str` is left alone. Otherwise `str` is
erased and filled up to the delimiter or the end of the stream; `eofbit` is set
when the end is reached, and `failbit` when no character at all was extracted
(not even a delimiter). -/
def getline (is : IStream) (delim : Char) (str : Str) : IStream × Str :=
  if is.eofbit || is.failbit then
    ({ is with failbit := true }, str)
  else
    let r := extract delim is.buf
    if r.2.2 then
      (⟨r.2.1, false, false⟩, r.1)
    else
      (⟨r.2.1, true, r.1.isEmpty⟩, r.1)

/-- The value of a 32-bit two's-complement `int` that holds the integer `x`
modulo 2^32: a value in the range from -2147483648 to 2147483647. -/
def wrap_int32 (x : Int) : Int := (x + 2147483648) % 4294967296 - 2147483648

/-- The loop of `get_col_index` (lines 28-36), `count` being the value before
the iteration; `++count` is an increment of a 32-bit `int`. -/
def get_col_index_loop : Nat → IStream → Str → Int → Str → Option Int
  | 0, _, _, _, _ => none
  | n + 1, iss, current, count, column =>
    let r := getline iss ',' current
    if r.1.failbit then none
    else
      let count := wrap_int32 (count + 1)
      if r.2 = column then some count
      else get_col_index_loop n r.1 r.2 count column

/-- Source `get_col_index` (lines 21-39). -/
def get_col_index (columns column : Str) : Option Int :=
  get_col_index_loop (columns.length + 1) (IStream.ofStr columns) [] (-1) column

/-- The loop of `get_fields` (lines 47-49). -/
def get_fields_loop : Nat → IStream → Str → List Str → List Str
  | 0, _, _, result => result
  | n + 1, iss, field, result =>
    let r := getline iss ',' field
    if r.1.failbit then result
    else get_fields_loop n r.1 r.2 (result ++ [r.2])

/-- Source `get_fields` (lines 41-52). -/
def get_fields (line : Str) : List Str :=
  get_fields_loop (line.length + 1) (IStream.ofStr line) [] []

/-- The `for` loop of `construct_line` (lines 58-61): appends each field and
a comma to `line`. -/
def append_fields : Str → List Str → Str
  | line, [] => line
  | line, field :: rest => append_fields ((line ++ field) ++ [',']) rest

/-- The assignment `*line.rbegin() = c`: overwrites the last character;
undefined on an empty string. -/
def set_last (line : Str) (c : Char) : Option Str :=
  if line.isEmpty then none else some (line.dropLast ++ [c])

/-- Source `construct_line` (lines 54-67). -/
def construct_line (data : List Str) : Option Str :=
  set_last (append_fields [] data) '\n'

/-- `std::count(s.begin(), s.end(), ',')`. -/
def count_commas (s : Str) : Nat := s.count ','

/-- The assignment `data[i] = v` on a vector: undefined past the end. -/
def vector_assign (data : List Str) (i : Int) (v : Str) : Option (List Str) :=
  if 0 ≤ i ∧ i.toNat < data.length then some (data.set i.toNat v) else none

/-- What the run can observe of the file system. The input path names a
regular file distinct from the output path: `file_content` gives its bytes and
`fs::is_empty` holds exactly when there are none. `path_extension` is
`fs::path::extension`. -/
structure Env where
  fs_exists : Str → Bool
  path_extension : Str → Str
  file_content : Str → Str
  ifstream_opens : Str → Bool
  ofstream_opens : Str → Bool

/-- What a run leaves behind: the text sent to `std::cout` and `std::cerr`,
the content of the output file (`none` when the output path was never opened),
and the value returned by `main`. -/
structure Outcome where
  cout : Str
  cerr : Str
  output_file : Option Str
  status : Int
deriving DecidableEq, Repr

/-- The row loop of `main` (lines 135-152). `out` is what has been written to
the output file so far, `line` the variable `line` before the iteration. -/
def row_loop : Nat → IStream → Str → Nat → Int → Str → Str → Option Outcome
  | 0, _, _, _, _, _, out => some ⟨[], [], some out, 0⟩
  | n + 1, input_file, line, fields, col_index, new_value, out =>
    let r := getline input_file '\n' line
    if r.1.failbit then some ⟨[], [], some out, 0⟩
    else
      let line := r.2
      if count_commas line + 1 ≠ fields then
        some ⟨[], "insufficient data\n".toList, some out, 0⟩
      else
        match vector_assign (get_fields line) col_index new_value with
        | none => none
        | some data =>
          match construct_line data with
          | none => none
          | some line => row_loop n r.1 line fields col_index new_value (out ++ line)

/-- Source `main` (lines 69-164). `argv0` is `argv[0]` and `args` are the
arguments after it, so that `argc = args.length + 1`; the first pattern is the
case `argc == 5`. -/
def main (env : Env) (argv0 : Str) (args : List Str) : Option Outcome :=
  match args with
  | [filename, column, new_value, output_path] =>
    if !(env.fs_exists filename && env.path_extension filename == ".csv".toList) then
      some ⟨[], "wrong input file, ".toList ++ filename ++ ['\n'], none, 0⟩
    else if (env.file_content filename).isEmpty then
      some ⟨"input file missing\n".toList, [], none, 0⟩
    else if !env.ifstream_opens filename then
      some ⟨[], "couldn't open the specified file\n".toList, none, 0⟩
    else
      let input_file := IStream.ofStr (env.file_content filename)
      let r := getline input_file '\n' []
      let columns := r.2
      let fields := count_commas columns + 1
      match get_col_index columns column with
      | some col_index =>
        if !env.ofstream_opens output_path then
          some ⟨[], "can't open output file\n".toList, none, 0⟩
        else
          row_loop (r.1.buf.length + 1) r.1 [] fields col_index new_value
            (columns ++ ['\n'])
      | none =>
        some ⟨"column name doesn't exist in the input file\n".toList, [], none, 0⟩
  | _ =>
    some ⟨[], "ERROR! usage: ".toList ++ argv0
      ++ " <input_file> <column> <new_value> <output_file>\n".toList, none, 0⟩

/-- An environment in which the input path exists with extension `.csv` and
content `text`, and both files can be opened. -/
def env_of (text : Str) : Env :=
  ⟨fun _ => true, fun _ => ".csv".toList, fun _ => text, fun _ => true, fun _ => true⟩

/-- The run `tool in.csv <column> <new_value> out.csv` on an input file with
content `text`. -/
def run (text column new_value : Str) : Option Outcome :=
  main (env_of text) "tool".toList ["in.csv".toList, column, new_value, "out.csv".toList]

/-! ## Reference definitions, following the words of the specification -/

/-- The fields of a line in the words of the specification: the substrings
obtained by splitting on every comma, empty fields preserved. -/
def split_commas : Str → List Str
  | [] => [[]]
  | c :: cs =>
    if c = ',' then [] :: split_commas cs
    else
      match split_commas cs with
      | [] => [[c]]
      | f :: fs => (c :: f) :: fs

/-- The fields joined by single commas, no comma after the final field. -/
def join_commas : List Str → Str
  | [] => []
  | [f] => f
  | f :: g :: rest => f ++ ',' :: join_commas (g :: rest)

/-- The fields that the `getline` loops of `get_fields` and `get_col_index`
meet, written as a direct recursion on the line. -/
def scan_fields : Str → List Str
  | [] => []
  | c :: cs =>
    if c = ',' then [] :: scan_fields cs
    else
      match scan_fields cs with
      | [] => [[c]]
      | f :: fs => (c :: f) :: fs

/-- The zero-based position of the first field equal to `c`, if any. -/
def first_match (c : Str) : List Str → Option Nat
  | [] => none
  | f :: fs => if f = c then some 0 else (first_match c fs).map (· + 1)

/-- The lines that the `getline` calls of `main` meet in the input text,
written as a direct recursion on the text. -/
def scan_lines : Str → List Str
  | [] => []
  | c :: cs =>
    if c = '\n' then [] :: scan_lines cs
    else
      match scan_lines cs with
      | [] => [[c]]
      | l :: ls => (c :: l) :: ls

/-- The row loop of `main` (lines 135-152) run over the list of the lines that
are left in the input, in place of the stream. -/
def write_rows : List Str → Nat → Int → Str → Str → Option Outcome
  | [], _, _, _, out => some ⟨[], [], some out, 0⟩
  | line :: rest, fields, col_index, new_value, out =>
    if count_commas line + 1 ≠ fields then
      some ⟨[], "insufficient data\n".toList, some out, 0⟩
    else
      match vector_assign (get_fields line) col_index new_value with
      | none => none
      | some data =>
        match construct_line data with
        | none => none
        | some line => write_rows rest fields col_index new_value (out ++ line)

/-- Lines 113-158 of `main` run over the header line and the list of the
lines after it, `ofstream_ok` telling whether the output file can be opened. -/
def main_on_lines (ofstream_ok : Bool) (columns : Str) (rows : List Str)
    (column new_value : Str) : Option Outcome :=
  match get_col_index columns column with
  | some col_index =>
    if !ofstream_ok then
      some ⟨[], "can't open output file\n".toList, none, 0⟩
    else
      write_rows rows (count_commas columns + 1) col_index new_value (columns ++ ['\n'])
  | none =>
    some ⟨"column name doesn't exist in the input file\n".toList, [], none, 0⟩

/-- The header line: the string `columns` read by line 110 of `main` from an
input file holding `text`. -/
def header_line (text : Str) : Str :=
  (getline (IStream.ofStr text) '\n' []).2

/-- The fields of the row `line` with position `col_index` replaced by
`new_value`, joined by commas: the row as rebuilt by lines 144-148, without
its newline. -/
def rebuilt_row (col_index : Int) (new_value line : Str) : Str :=
  join_commas ((get_fields line).set col_index.toNat new_value)

/-- The environment `env` with the input file holding `text`. -/
def set_content (env : Env) (text : Str) : Env :=
  { env with file_content := fun _ => text }

/-! ## The character extraction -/

theorem extract_rest_length (d : Char) (s : Str) :
    (extract d s).2.1.length ≤ s.length := by
  induction s with
  | nil => simp [extract]
  | cons c cs ih =>
    by_cases h : c = d
    · simp [extract, h]
    · simp only [extract, h, if_false, List.length_cons]
      omega

theorem extract_rest_length_lt (d : Char) (s : Str) (h : s ≠ []) :
    (extract d s).2.1.length < s.length := by
  cases s with
  | nil => exact absurd rfl h
  | cons c cs =>
    by_cases hc : c = d
    · simp [extract, hc]
    · have := extract_rest_length d cs
      simp only [extract, hc, if_false, List.length_cons]
      omega

theorem extract_eof (d : Char) (s : Str) (h : (extract d s).2.2 = false) :
    (extract d s).1 = s ∧ (extract d s).2.1 = [] ∧ d ∉ s := by
  induction s with
  | nil => simp [extract]
  | cons c cs ih =>
    by_cases hc : c = d
    · simp [extract, hc] at h
    · simp only [extract, hc, if_false] at h ⊢
      obtain ⟨h1, h2, h3⟩ := ih h
      refine ⟨by rw [h1], h2, ?_⟩
      simp only [List.mem_cons, not_or]
      exact ⟨fun e => hc e.symm, h3⟩

theorem extract_delim (d : Char) (s : Str) (h : (extract d s).2.2 = true) :
    s = (extract d s).1 ++ d :: (extract d s).2.1 := by
  induction s with
  | nil => simp [extract] at h
  | cons c cs ih =>
    by_cases hc : c = d
    · simp [extract, hc]
    · simp only [extract, hc, if_false] at h ⊢
      simpa using ih h

theorem extract_field_no_delim (d : Char) (s : Str) : d ∉ (extract d s).1 := by
  induction s with
  | nil => simp [extract]
  | cons c cs ih =>
    by_cases hc : c = d
    · simp [extract, hc]
    · simp only [extract, hc, if_false, List.mem_cons, not_or]
      exact ⟨fun e => hc e.symm, ih⟩

/-! ## The loop of `get_fields` -/

theorem scan_fields_extract (s : Str) (h : s ≠ []) :
    scan_fields s = (extract ',' s).1 :: scan_fields (extract ',' s).2.1 := by
  induction s with
  | nil => exact absurd rfl h
  | cons c cs ih =>
    by_cases hc : c = ','
    · simp [scan_fields, extract, hc]
    · cases cs with
      | nil => simp [scan_fields, extract, hc]
      | cons c2 cs2 =>
        have ih2 := ih (List.cons_ne_nil c2 cs2)
        simp only [scan_fields, extract, hc, if_false] at ih2 ⊢
        rw [ih2]

theorem get_fields_loop_not_good (n : Nat) (iss : IStream) (field : Str)
    (result : List Str) (h : (iss.eofbit || iss.failbit) = true) :
    get_fields_loop n iss field result = result := by
  cases n with
  | zero => rfl
  | succ n => simp [get_fields_loop, getline, h]

/-- Any fuel above the number of unread characters lets the loop of
`get_fields` run to its end: it appends the fields met by the scan. -/
theorem get_fields_loop_fuel (n : Nat) (s field : Str) (result : List Str)
    (h : s.length < n) :
    get_fields_loop n (IStream.ofStr s) field result = result ++ scan_fields s := by
  induction n generalizing s field result with
  | zero => omega
  | succ n ih =>
    by_cases hs : s = []
    · subst hs
      simp [get_fields_loop, getline, IStream.ofStr, extract, scan_fields]
    · rw [scan_fields_extract s hs]
      have hlt := extract_rest_length_lt ',' s hs
      cases hflag : (extract ',' s).2.2 with
      | true =>
        have := ih (extract ',' s).2.1 (extract ',' s).1
          (result ++ [(extract ',' s).1]) (by omega)
        simp only [IStream.ofStr] at this
        simp [get_fields_loop, getline, IStream.ofStr, hflag, this]
      | false =>
        obtain ⟨h1, h2, _⟩ := extract_eof ',' s hflag
        have hne : (extract ',' s).1 ≠ [] := by rw [h1]; exact hs
        simp [get_fields_loop, getline, IStream.ofStr, hflag, hne,
          get_fields_loop_not_good, h2, scan_fields]

theorem get_fields_eq_scan (line : Str) : get_fields line = scan_fields line := by
  simp [get_fields, get_fields_loop_fuel]

/-! ## Splitting and joining -/

theorem split_commas_ne_nil (s : Str) : split_commas s ≠ [] := by
  cases s with
  | nil => simp [split_commas]
  | cons c cs =>
    by_cases hc : c = ','
    · simp [split_commas, hc]
    · simp only [split_commas, hc, if_false]
      split <;> simp

theorem split_commas_length (s : Str) :
    (split_commas s).length = count_commas s + 1 := by
  induction s with
  | nil => simp [split_commas, count_commas]
  | cons c cs ih =>
    by_cases hc : c = ','
    · subst hc
      simp [split_commas, count_commas] at ih ⊢
      exact ih
    · have hc2 : ¬ (c == ',') = true := by simpa using hc
      simp only [split_commas, hc, if_false, count_commas] at ih ⊢
      rw [List.count_cons, if_neg hc2, Nat.add_zero, ← ih]
      split
      · next h => exact absurd h (split_commas_ne_nil cs)
      · next f fs h => simp [h]

theorem split_commas_no_comma (s : Str) : ∀ f ∈ split_commas s, ',' ∉ f := by
  induction s with
  | nil => simp [split_commas]
  | cons c cs ih =>
    by_cases hc : c = ','
    · simp only [split_commas, hc, if_true, List.mem_cons]
      rintro f (rfl | hf)
      · simp
      · exact ih f hf
    · simp only [split_commas, hc, if_false]
      split
      · simp [Ne.symm hc]
      · next f fs h =>
        rw [h] at ih
        intro g hg
        rcases List.mem_cons.1 hg with rfl | hg
        · simp only [List.mem_cons, not_or]
          exact ⟨fun e => hc e.symm, ih f (List.mem_cons_self _ _)⟩
        · exact ih g (List.mem_cons_of_mem _ hg)

theorem join_commas_cons (f : Str) (fs : List Str) (h : fs ≠ []) :
    join_commas (f :: fs) = f ++ ',' :: join_commas fs := by
  cases fs with
  | nil => exact absurd rfl h
  | cons g rest => rfl

theorem join_split_commas (s : Str) : join_commas (split_commas s) = s := by
  induction s with
  | nil => rfl
  | cons c cs ih =>
    by_cases hc : c = ','
    · simp only [split_commas, hc, if_true]
      rw [join_commas_cons _ _ (split_commas_ne_nil cs), ih]
      rfl
    · simp only [split_commas, hc, if_false]
      split
      · next h => exact absurd h (split_commas_ne_nil cs)
      · next f fs h =>
        rw [h] at ih
        cases fs with
        | nil => simp only [join_commas] at ih ⊢; rw [ih]
        | cons g rest =>
          simp only [join_commas] at ih ⊢
          rw [← ih]
          rfl

/-- A line followed by a comma is scanned into the fields of the line. -/
theorem scan_fields_append_comma (s : Str) :
    scan_fields (s ++ [',']) = split_commas s := by
  induction s with
  | nil => simp [scan_fields, split_commas]
  | cons c cs ih =>
    by_cases hc : c = ','
    · simp [scan_fields, split_commas, hc, ih]
    · have e : scan_fields (c :: (cs ++ [','])) =
          match scan_fields (cs ++ [',']) with
          | [] => [[c]]
          | f :: fs => (c :: f) :: fs := by
        simp only [scan_fields, hc, if_false]
      rw [List.cons_append, e, ih]
      simp only [split_commas, hc, if_false]

/-- A non-empty line that does not end with a comma is scanned into its
fields. -/
theorem scan_fields_eq_split (s : Str) (hne : s ≠ [])
    (hlast : s.getLast? ≠ some ',') : scan_fields s = split_commas s := by
  induction s with
  | nil => exact absurd rfl hne
  | cons c cs ih =>
    cases cs with
    | nil =>
      have hc : c ≠ ',' := by simpa using hlast
      simp [scan_fields, split_commas, hc]
    | cons c2 cs2 =>
      have ih2 := ih (List.cons_ne_nil c2 cs2) (by simpa [List.getLast?_cons_cons] using hlast)
      by_cases hc : c = ','
      · simp only [scan_fields, split_commas, hc, if_true] at ih2 ⊢
        rw [ih2]
      · simp only [scan_fields, split_commas, hc, if_false] at ih2 ⊢
        rw [ih2]

/-! ## The line builder -/

theorem append_fields_acc (line : Str) (data : List Str) :
    append_fields line data = line ++ append_fields [] data := by
  induction data generalizing line with
  | nil => simp [append_fields]
  | cons f rest ih =>
    simp only [append_fields, List.nil_append]
    rw [ih ((line ++ f) ++ [',']), ih (f ++ [','])]
    simp

theorem append_fields_eq_join (data : List Str) (h : data ≠ []) :
    append_fields [] data = join_commas data ++ [','] := by
  induction data with
  | nil => exact absurd rfl h
  | cons f rest ih =>
    cases rest with
    | nil => simp [append_fields, join_commas]
    | cons g rest2 =>
      have ih2 := ih (List.cons_ne_nil g rest2)
      have e : append_fields [] (f :: g :: rest2)
          = (f ++ [',']) ++ append_fields [] (g :: rest2) := by
        show append_fields (([] ++ f) ++ [',']) (g :: rest2) = _
        rw [append_fields_acc, List.nil_append]
      rw [e, ih2, join_commas]
      simp

theorem construct_line_eq (data : List Str) (h : data ≠ []) :
    construct_line data = some (join_commas data ++ ['\n']) := by
  simp [construct_line, append_fields_eq_join data h, set_last]

/-! ## The loop of `get_col_index` -/

theorem get_col_index_loop_not_good (n : Nat) (iss : IStream) (current : Str)
    (count : Int) (column : Str) (h : (iss.eofbit || iss.failbit) = true) :
    get_col_index_loop n iss current count column = none := by
  cases n with
  | zero => rfl
  | succ n => simp [get_col_index_loop, getline, h]

theorem wrap_int32_add (a b : Int) : wrap_int32 (wrap_int32 a + b) = wrap_int32 (a + b) := by
  unfold wrap_int32
  omega

/-- Any fuel above the number of unread characters lets the loop of
`get_col_index` run to its end: it returns the position of the first scanned
field equal to `column`, counted from `count + 1` in 32-bit arithmetic. -/
theorem get_col_index_loop_fuel (n : Nat) (s current : Str) (count : Int)
    (column : Str) (h : s.length < n) :
    get_col_index_loop n (IStream.ofStr s) current count column
      = (first_match column (scan_fields s)).map
          (fun (i : Nat) => wrap_int32 (count + 1 + (i : Int))) := by
  induction n generalizing s current count with
  | zero => omega
  | succ n ih =>
    by_cases hs : s = []
    · subst hs
      simp [get_col_index_loop, getline, IStream.ofStr, extract, scan_fields, first_match]
    · rw [scan_fields_extract s hs]
      have hlt := extract_rest_length_lt ',' s hs
      by_cases hf : (extract ',' s).1 = column
      · cases hflag : (extract ',' s).2.2 with
        | true => simp [get_col_index_loop, getline, IStream.ofStr, hflag, hf, first_match]
        | false =>
          obtain ⟨h1, _, _⟩ := extract_eof ',' s hflag
          have hne : column ≠ [] := by rw [← hf, h1]; exact hs
          simp [get_col_index_loop, getline, IStream.ofStr, hflag, hf, first_match, hne]
      · cases hflag : (extract ',' s).2.2 with
        | true =>
          have := ih (extract ',' s).2.1 (extract ',' s).1 (wrap_int32 (count + 1)) (by omega)
          simp only [IStream.ofStr] at this
          simp only [get_col_index_loop, getline, IStream.ofStr, hflag, hf, first_match,
            Bool.or_self, Bool.false_eq_true, if_false, if_true, this, Option.map_map]
          congr 1
          funext i
          show wrap_int32 (wrap_int32 (count + 1) + 1 + (i : Int))
            = wrap_int32 (count + 1 + ((i + 1 : Nat) : Int))
          rw [Int.add_assoc (wrap_int32 (count + 1)), wrap_int32_add]
          congr 1
          push_cast
          ring
        | false =>
          obtain ⟨h1, h2, _⟩ := extract_eof ',' s hflag
          have hne : (extract ',' s).1 ≠ [] := by rw [h1]; exact hs
          simp [get_col_index_loop, getline, IStream.ofStr, hflag, hf, first_match, hne,
            get_col_index_loop_not_good, h2, scan_fields]

/-- The value returned by `get_col_index`: the position of the first scanned
field equal to `column`, as a 32-bit `int`. -/
theorem get_col_index_eq_first_match (columns column : Str) :
    get_col_index columns column
      = (first_match column (scan_fields columns)).map
          (fun (i : Nat) => wrap_int32 (i : Int)) := by
  have e : (fun (i : Nat) => wrap_int32 (-1 + 1 + (i : Int)))
      = fun (i : Nat) => wrap_int32 (i : Int) := by
    funext i
    rw [show (-1 : Int) + 1 + (i : Int) = (i : Int) by omega]
  rw [get_col_index, get_col_index_loop_fuel _ _ _ _ _ (Nat.lt_succ_self _), e]

/-! ## The row loop of `main` -/

theorem row_loop_not_good (n : Nat) (input_file : IStream) (line : Str) (fields : Nat)
    (col_index : Int) (new_value out : Str)
    (h : (input_file.eofbit || input_file.failbit) = true) :
    row_loop n input_file line fields col_index new_value out
      = some ⟨[], [], some out, 0⟩ := by
  cases n with
  | zero => rfl
  | succ n => simp [row_loop, getline, h]

/-- Any two amounts of fuel above the number of unread characters give the same
run of the row loop. -/
theorem row_loop_fuel (n m : Nat) (s line : Str) (fields : Nat) (col_index : Int)
    (new_value out : Str) (hn : s.length < n) (hm : s.length < m) :
    row_loop n (IStream.ofStr s) line fields col_index new_value out
      = row_loop m (IStream.ofStr s) line fields col_index new_value out := by
  induction n generalizing m s line out with
  | zero => omega
  | succ n ih =>
    cases m with
    | zero => omega
    | succ m =>
      by_cases hs : s = []
      · subst hs
        simp [row_loop, getline, IStream.ofStr, extract]
      · have hlt := extract_rest_length_lt '\n' s hs
        cases hflag : (extract '\n' s).2.2 with
        | true =>
          simp only [row_loop, getline, IStream.ofStr, hflag, Bool.or_self,
            Bool.false_eq_true, if_false, if_true]
          split
          · rfl
          · split
            · rfl
            · split
              · rfl
              · exact ih m _ _ _ (by omega) (by omega)
        | false =>
          obtain ⟨h1, h2, _⟩ := extract_eof '\n' s hflag
          have hne : (extract '\n' s).1 ≠ [] := by rw [h1]; exact hs
          simp only [row_loop, getline, IStream.ofStr, hflag, Bool.or_self,
            Bool.false_eq_true, if_false, List.isEmpty_eq_true, hne]
          split
          · rfl
          · split
            · rfl
            · split
              · rfl
              · rw [row_loop_not_good _ _ _ _ _ _ _ (by simp),
                  row_loop_not_good _ _ _ _ _ _ _ (by simp)]

/-! ## Uniqueness of the splitting -/

theorem split_commas_single (f : Str) (h : ',' ∉ f) : split_commas f = [f] := by
  induction f with
  | nil => rfl
  | cons c cs ih =>
    simp only [List.mem_cons, not_or] at h
    have hc : c ≠ ',' := fun e => h.1 e.symm
    simp only [split_commas, hc, if_false, ih h.2]

theorem split_commas_append_comma (f t : Str) (h : ',' ∉ f) :
    split_commas (f ++ ',' :: t) = f :: split_commas t := by
  induction f with
  | nil => simp [split_commas]
  | cons c cs ih =>
    simp only [List.mem_cons, not_or] at h
    have hc : c ≠ ',' := fun e => h.1 e.symm
    have e : split_commas (c :: (cs ++ ',' :: t)) =
        match split_commas (cs ++ ',' :: t) with
        | [] => [[c]]
        | f :: fs => (c :: f) :: fs := by
      simp only [split_commas, hc, if_false]
    rw [List.cons_append, e, ih h.2]

theorem split_join_commas (fs : List Str) (hne : fs ≠ [])
    (h : ∀ f ∈ fs, ',' ∉ f) : split_commas (join_commas fs) = fs := by
  induction fs with
  | nil => exact absurd rfl hne
  | cons f rest ih =>
    cases rest with
    | nil => exact split_commas_single f (h f (List.mem_cons_self _ _))
    | cons g r =>
      rw [join_commas, split_commas_append_comma f _ (h f (List.mem_cons_self _ _)),
        ih (List.cons_ne_nil g r) (fun x hx => h x (List.mem_cons_of_mem _ hx))]

theorem join_commas_eq_intercalate (fs : List Str) :
    join_commas fs = [','].intercalate fs := by
  induction fs with
  | nil => rfl
  | cons f rest ih =>
    cases rest with
    | nil => simp [join_commas, List.intercalate]
    | cons g r =>
      rw [join_commas, ih]
      simp [List.intercalate]

/-! ## The first match -/

theorem first_match_eq_none_iff (c : Str) (l : List Str) :
    first_match c l = none ↔ c ∉ l := by
  induction l with
  | nil => simp [first_match]
  | cons f fs ih =>
    by_cases hf : f = c
    · simp [first_match, hf]
    · have hf2 : ¬ c = f := fun e => hf e.symm
      simp [first_match, hf, hf2, ih]

theorem first_match_append_empty (c : Str) (hc : c ≠ []) (l : List Str) :
    first_match c (l ++ [[]]) = first_match c l := by
  induction l with
  | nil => simp [first_match, Ne.symm hc]
  | cons f fs ih =>
    show (if f = c then some 0 else (first_match c (fs ++ [[]])).map (· + 1))
      = if f = c then some 0 else (first_match c fs).map (· + 1)
    rw [ih]

theorem split_commas_snoc_comma (s : Str) :
    split_commas (s ++ [',']) = split_commas s ++ [[]] := by
  induction s with
  | nil => simp [split_commas]
  | cons c cs ih =>
    by_cases hc : c = ','
    · simp [split_commas, hc, ih]
    · have e : split_commas (c :: (cs ++ [','])) =
          match split_commas (cs ++ [',']) with
          | [] => [[c]]
          | f :: fs => (c :: f) :: fs := by
        simp only [split_commas, hc, if_false]
      rw [List.cons_append, e, ih]
      simp only [split_commas, hc, if_false]
      cases h : split_commas cs with
      | nil => exact absurd h (split_commas_ne_nil cs)
      | cons f fs => rfl

/-- The splitting of the specification is the scan of the `getline` loops,
followed by one more empty field when the line is empty or ends with a
comma. -/
theorem split_commas_eq_scan (s : Str) :
    split_commas s
      = scan_fields s ++ (if s = [] ∨ s.getLast? = some ',' then [[]] else []) := by
  by_cases hs : s = []
  · subst hs
    simp [split_commas, scan_fields]
  · by_cases hlast : s.getLast? = some ','
    · have hL : s.dropLast ++ [','] = s := List.dropLast_append_getLast? ',' hlast
      rw [if_pos (Or.inr hlast)]
      conv_lhs => rw [← hL]
      conv_rhs => rw [← hL]
      rw [split_commas_snoc_comma, scan_fields_append_comma]
    · rw [if_neg (by simp [hs, hlast]), scan_fields_eq_split s hs hlast]
      simp

/-- For a non-empty column name `get_col_index` returns the position of its
first match among the fields of the header split on every comma, as a 32-bit
`int`. -/
theorem get_col_index_nonempty_column (columns column : Str) (hc : column ≠ []) :
    get_col_index columns column
      = (first_match column (split_commas columns)).map
          (fun (i : Nat) => wrap_int32 (i : Int)) := by
  rw [get_col_index_eq_first_match, split_commas_eq_scan]
  split
  · rw [first_match_append_empty column hc]
  · rw [List.append_nil]

/-! ## The scenarios of the specification -/

theorem run_scenario_1 :
    run "name,age\nann,30\nbob,25\n".toList "age".toList "99".toList
      = some ⟨[], [], some "name,age\nann,99\nbob,99\n".toList, 0⟩ := by
  decide

theorem run_scenario_2 :
    run "name,age\nann,30\n".toList "height".toList "99".toList
      = some ⟨"column name doesn't exist in the input file\n".toList, [], none, 0⟩ := by
  decide

theorem run_scenario_5 :
    run "a,b\n1,2\n3,4,5\n6,7\n".toList "b".toList "x".toList
      = some ⟨[], "insufficient data\n".toList, some "a,b\n1,x\n".toList, 0⟩ := by
  decide

/-! ## The lines of the input -/

theorem scan_lines_extract (s : Str) (h : s ≠ []) :
    scan_lines s = (extract '\n' s).1 :: scan_lines (extract '\n' s).2.1 := by
  induction s with
  | nil => exact absurd rfl h
  | cons c cs ih =>
    by_cases hc : c = '\n'
    · simp [scan_lines, extract, hc]
    · cases cs with
      | nil => simp [scan_lines, extract, hc]
      | cons c2 cs2 =>
        have ih2 := ih (List.cons_ne_nil c2 cs2)
        simp only [scan_lines, extract, hc, if_false] at ih2 ⊢
        rw [ih2]

/-- With fuel above the number of unread characters the row loop on the stream
is the row loop on the list of the lines left in the stream. -/
theorem row_loop_eq_write_rows (n : Nat) (s line : Str) (fields : Nat) (col_index : Int)
    (new_value out : Str) (hn : s.length < n) :
    row_loop n (IStream.ofStr s) line fields col_index new_value out
      = write_rows (scan_lines s) fields col_index new_value out := by
  induction n generalizing s line out with
  | zero => omega
  | succ n ih =>
    by_cases hs : s = []
    · subst hs
      simp [row_loop, getline, IStream.ofStr, extract, scan_lines, write_rows]
    · have hlt := extract_rest_length_lt '\n' s hs
      rw [scan_lines_extract s hs]
      cases hflag : (extract '\n' s).2.2 with
      | true =>
        simp only [row_loop, write_rows, getline, IStream.ofStr, hflag, Bool.or_self,
          Bool.false_eq_true, if_false, if_true]
        split
        · rfl
        · split
          · rfl
          · split
            · rfl
            · exact ih _ _ _ (by omega)
      | false =>
        obtain ⟨h1, h2, _⟩ := extract_eof '\n' s hflag
        have hne : (extract '\n' s).1 ≠ [] := by rw [h1]; exact hs
        simp only [row_loop, write_rows, getline, IStream.ofStr, hflag, Bool.or_self,
          Bool.false_eq_true, if_false, List.isEmpty_eq_true, hne]
        split
        · rfl
        · split
          · rfl
          · split
            · rfl
            · rw [row_loop_not_good _ _ _ _ _ _ _ (by simp), h2]
              simp [scan_lines, write_rows]

/-- Once the checks of the arguments and of the input file have passed, the
run is the run over the lines of the input file: the first one is the header,
the others are the rows. -/
theorem main_eq_main_on_lines (env : Env) (argv0 filename column new_value output_path : Str)
    (hx : env.fs_exists filename = true)
    (hp : env.path_extension filename = ".csv".toList)
    (hne : env.file_content filename ≠ [])
    (hi : env.ifstream_opens filename = true) :
    main env argv0 [filename, column, new_value, output_path]
      = main_on_lines (env.ofstream_opens output_path)
          ((scan_lines (env.file_content filename)).headD [])
          ((scan_lines (env.file_content filename)).tail) column new_value := by
  rw [scan_lines_extract _ hne]
  simp only [List.headD_cons, List.tail_cons]
  have hemp : (env.file_content filename).isEmpty = false := by
    cases h : env.file_content filename with
    | nil => exact absurd h hne
    | cons a l => rfl
  simp only [main, main_on_lines, hx, hp, hi, hemp, getline, IStream.ofStr,
    Bool.or_self, Bool.false_eq_true, if_false, beq_self_eq_true, Bool.and_self,
    Bool.not_true]
  cases hflag : (extract '\n' (env.file_content filename)).2.2 with
  | true =>
    simp only [if_true]
    split
    · split
      · rfl
      · exact row_loop_eq_write_rows _ _ _ _ _ _ _ (Nat.lt_succ_self _)
    · rfl
  | false =>
    obtain ⟨_, h2, _⟩ := extract_eof '\n' _ hflag
    simp only [Bool.false_eq_true, if_false]
    split
    · split
      · rfl
      · rw [row_loop_not_good _ _ _ _ _ _ _ (by simp), h2]
        simp [scan_lines, write_rows]
    · rfl

theorem header_line_eq_extract (text : Str) :
    header_line text = (extract '\n' text).1 := by
  simp only [header_line, getline, IStream.ofStr, Bool.or_self, Bool.false_eq_true, if_false]
  split <;> rfl

theorem header_line_eq_head (text : Str) (h : text ≠ []) :
    header_line text = (scan_lines text).headD [] := by
  rw [header_line_eq_extract, scan_lines_extract text h, List.headD_cons]

/-! ## The index returned by `get_col_index` -/

theorem get_col_index_eq_none_of_not_mem (columns column : Str)
    (h : column ∉ split_commas columns) : get_col_index columns column = none := by
  rw [get_col_index_eq_first_match, Option.map_eq_none', first_match_eq_none_iff]
  intro hmem
  apply h
  rw [split_commas_eq_scan]
  exact List.mem_append_left _ hmem

theorem row_loop_status (n : Nat) (input_file : IStream) (line : Str) (fields : Nat)
    (col_index : Int) (new_value out : Str) (o : Outcome)
    (h : row_loop n input_file line fields col_index new_value out = some o) :
    o.status = 0 := by
  induction n generalizing input_file line out with
  | zero =>
    simp only [row_loop, Option.some.injEq] at h
    rw [← h]
  | succ n ih =>
    simp only [row_loop] at h
    split at h
    · simp only [Option.some.injEq] at h
      rw [← h]
    · split at h
      · simp only [Option.some.injEq] at h
        rw [← h]
      · split at h
        · exact absurd h (by simp)
        · split at h
          · exact absurd h (by simp)
          · exact ih _ _ _ h

/-- Every run that is defined returns 0 from `main`. -/
theorem main_status (env : Env) (argv0 : Str) (args : List Str) (o : Outcome)
    (h : main env argv0 args = some o) : o.status = 0 := by
  simp only [main] at h
  split at h
  · split at h
    · simp only [Option.some.injEq] at h
      rw [← h]
    · split at h
      · simp only [Option.some.injEq] at h
        rw [← h]
      · split at h
        · simp only [Option.some.injEq] at h
          rw [← h]
        · split at h
          · split at h
            · simp only [Option.some.injEq] at h
              rw [← h]
            · exact row_loop_status _ _ _ _ _ _ _ _ h
          · simp only [Option.some.injEq] at h
            rw [← h]
  · simp only [Option.some.injEq] at h
    rw [← h]

/-! ## The early exits of `main` -/

theorem main_usage (env : Env) (argv0 : Str) (args : List Str) (h : args.length ≠ 4) :
    main env argv0 args = some ⟨[], "ERROR! usage: ".toList ++ argv0
      ++ " <input_file> <column> <new_value> <output_file>\n".toList, none, 0⟩ := by
  unfold main
  split
  · simp at h
  · rfl

theorem main_wrong_input (env : Env) (argv0 f c v o : Str)
    (h : env.fs_exists f = false ∨ env.path_extension f ≠ ".csv".toList) :
    main env argv0 [f, c, v, o]
      = some ⟨[], "wrong input file, ".toList ++ f ++ ['\n'], none, 0⟩ := by
  rcases h with h | h
  · simp [main, h]
  · have h2 : (env.path_extension f == ".csv".toList) = false := by simpa using h
    have h3 : ¬ env.path_extension f = ['.', 'c', 's', 'v'] := h
    simp [main, h2, h3]

theorem main_empty_file (env : Env) (argv0 f c v o : Str)
    (hx : env.fs_exists f = true) (hp : env.path_extension f = ".csv".toList)
    (he : env.file_content f = []) :
    main env argv0 [f, c, v, o] = some ⟨"input file missing\n".toList, [], none, 0⟩ := by
  simp [main, hx, hp, he]

theorem main_open_failure (env : Env) (argv0 f c v o : Str)
    (hx : env.fs_exists f = true) (hp : env.path_extension f = ".csv".toList)
    (hne : env.file_content f ≠ []) (hi : env.ifstream_opens f = false) :
    main env argv0 [f, c, v, o]
      = some ⟨[], "couldn't open the specified file\n".toList, none, 0⟩ := by
  simp [main, hx, hp, hne, hi]

/-! ## One row of the row loop -/

theorem scan_lines_no_newline (s : Str) : ∀ l ∈ scan_lines s, '\n' ∉ l := by
  induction s with
  | nil => simp [scan_lines]
  | cons c cs ih =>
    by_cases hc : c = '\n'
    · simp only [scan_lines, hc, if_true, List.mem_cons]
      rintro l (rfl | hl)
      · simp
      · exact ih l hl
    · simp only [scan_lines, hc, if_false]
      split
      · simp [Ne.symm hc]
      · next l ls h =>
        rw [h] at ih
        intro g hg
        rcases List.mem_cons.1 hg with rfl | hg
        · simp only [List.mem_cons, not_or]
          exact ⟨fun e => hc e.symm, ih l (List.mem_cons_self _ _)⟩
        · exact ih g (List.mem_cons_of_mem _ hg)

theorem scan_fields_chars (s : Str) : ∀ f ∈ scan_fields s, ∀ x ∈ f, x ∈ s := by
  induction s with
  | nil => simp [scan_fields]
  | cons c cs ih =>
    by_cases hc : c = ','
    · simp only [scan_fields, hc, if_true, List.mem_cons]
      rintro f (rfl | hf) x hx
      · simp at hx
      · exact Or.inr (ih f hf x hx)
    · simp only [scan_fields, hc, if_false]
      split
      · intro f hf x hx
        simp only [List.mem_singleton] at hf
        subst hf
        simp only [List.mem_singleton] at hx
        subst hx
        exact List.mem_cons_self _ _
      · next g gs h =>
        rw [h] at ih
        intro f hf x hx
        rcases List.mem_cons.1 hf with rfl | hf
        · rcases List.mem_cons.1 hx with rfl | hx
          · exact List.mem_cons_self _ _
          · exact List.mem_cons_of_mem _ (ih g (List.mem_cons_self _ _) x hx)
        · exact List.mem_cons_of_mem _ (ih f (List.mem_cons_of_mem _ hf) x hx)

theorem join_commas_getLast (fs : List Str) (h : ∀ f ∈ fs, f.getLast? ≠ some '\n') :
    (join_commas fs).getLast? ≠ some '\n' := by
  induction fs with
  | nil => simp [join_commas]
  | cons f rest ih =>
    cases rest with
    | nil => exact h f (List.mem_cons_self _ _)
    | cons g r =>
      have ih2 := ih (fun x hx => h x (List.mem_cons_of_mem _ hx))
      rw [join_commas, List.getLast?_append, List.getLast?_cons]
      cases hj : (join_commas (g :: r)).getLast? with
      | none => simp
      | some x =>
        rw [hj] at ih2
        simpa using ih2

theorem scan_lines_append_newline (s : Str) (hne : s ≠ [])
    (hlast : s.getLast? ≠ some '\n') : scan_lines (s ++ ['\n']) = scan_lines s := by
  induction s with
  | nil => exact absurd rfl hne
  | cons c cs ih =>
    cases cs with
    | nil =>
      have hc : c ≠ '\n' := by simpa using hlast
      simp [scan_lines, hc]
    | cons c2 cs2 =>
      have ih2 := ih (List.cons_ne_nil c2 cs2) (by simpa [List.getLast?_cons_cons] using hlast)
      have e : ∀ t : Str, scan_lines (c :: t) =
          if c = '\n' then [] :: scan_lines t
          else
            match scan_lines t with
            | [] => [[c]]
            | l :: ls => (c :: l) :: ls := fun t => by simp only [scan_lines]
      rw [List.cons_append, e, ih2, ← e]

theorem vector_assign_eq_some (data : List Str) (i : Int) (v : Str) (res : List Str)
    (h : vector_assign data i v = some res) :
    res = data.set i.toNat v ∧ i.toNat < data.length ∧ res ≠ [] := by
  unfold vector_assign at h
  split at h
  · next hb =>
    simp only [Option.some.injEq] at h
    refine ⟨h.symm, hb.2, ?_⟩
    intro e
    have := congrArg List.length e
    rw [← h] at this
    simp only [List.length_set, List.length_nil] at this
    omega
  · exact absurd h (by simp)

/-- A line built from a row without newline, with a value that does not end
with a newline, ends with exactly one newline character. -/
theorem written_row_ends_with_one_newline (L v : Str) (i : Int) (data : List Str) (w : Str)
    (hL : '\n' ∉ L) (hv : v.getLast? ≠ some '\n')
    (hdata : vector_assign (get_fields L) i v = some data)
    (hw : construct_line data = some w) :
    w = rebuilt_row i v L ++ ['\n'] ∧ w.getLast? = some '\n'
    ∧ w.dropLast.getLast? ≠ some '\n' := by
  obtain ⟨hset, _, hdne⟩ := vector_assign_eq_some _ _ _ _ hdata
  rw [construct_line_eq data hdne, Option.some.injEq] at hw
  have hw2 : w = rebuilt_row i v L ++ ['\n'] := by
    rw [← hw, hset]
    rfl
  refine ⟨hw2, by rw [hw2, List.getLast?_concat], ?_⟩
  rw [hw2, List.dropLast_concat]
  apply join_commas_getLast
  intro f hf
  rcases List.mem_or_eq_of_mem_set hf with hf | rfl
  · intro hlast
    rw [get_fields_eq_scan] at hf
    exact hL (scan_fields_chars L f hf _ (List.mem_of_getLast?_eq_some hlast))
  · exact hv

theorem rebuilt_row_getLast (L v : Str) (i : Int) (hL : '\n' ∉ L)
    (hv : v.getLast? ≠ some '\n') : (rebuilt_row i v L).getLast? ≠ some '\n' := by
  apply join_commas_getLast
  intro f hf
  rcases List.mem_or_eq_of_mem_set hf with hf | rfl
  · intro hlast
    rw [get_fields_eq_scan] at hf
    exact hL (scan_fields_chars L f hf _ (List.mem_of_getLast?_eq_some hlast))
  · exact hv

theorem header_line_no_newline (text : Str) : '\n' ∉ header_line text := by
  rw [header_line_eq_extract]
  exact extract_field_no_delim '\n' text

/-- What a defined run of the row loop has written: the rebuilt rows, each
followed by a newline, of the rows before the one at which it stopped. -/
theorem write_rows_output (rows : List Str) (fields : Nat) (i : Int) (v out : Str)
    (o : Outcome) (h : write_rows rows fields i v out = some o) :
    ∃ k, k ≤ rows.length ∧ o.output_file
      = some (out ++ ((rows.take k).map (fun L => rebuilt_row i v L ++ ['\n'])).flatten) := by
  induction rows generalizing out with
  | nil =>
    simp only [write_rows, Option.some.injEq] at h
    exact ⟨0, Nat.le_refl _, by rw [← h]; simp⟩
  | cons L rest ih =>
    simp only [write_rows] at h
    split at h
    · simp only [Option.some.injEq] at h
      exact ⟨0, Nat.zero_le _, by rw [← h]; simp⟩
    · split at h
      · exact absurd h (by simp)
      · next data hdata =>
        obtain ⟨hset, _, hdne⟩ := vector_assign_eq_some _ _ _ _ hdata
        rw [construct_line_eq data hdne] at h
        obtain ⟨k, hk, hout⟩ := ih _ h
        refine ⟨k + 1, by simp only [List.length_cons]; omega, ?_⟩
        rw [hout, hset]
        simp [rebuilt_row]

/-! ## A header with more fields than a 32-bit `int` counts -/

/-- C1 (evaluation at the failing input): on the input `a,b⏎x,⏎` with column
`a` and value `v` the column is found at position 0 and the row `x,` has as
many commas as the header, yet the driver writes `a,b⏎v⏎`, while the fields of
the row split on every comma (`x` and the empty field) with position 0
replaced and joined by commas give `a,b⏎v,⏎`. -/
theorem driver_drops_final_empty_field :
    get_col_index "a,b".toList "a".toList = some 0
    ∧ count_commas "x,".toList = count_commas "a,b".toList
    ∧ run "a,b\nx,\n".toList "a".toList "v".toList
        = some ⟨[], [], some "a,b\nv\n".toList, 0⟩
    ∧ "a,b\n".toList
        ++ (join_commas ((split_commas "x,".toList).set 0 "v".toList) ++ ['\n'])
        = "a,b\nv,\n".toList := by
  decide

/-- C2 (evaluation at the failing input): the header `a,` split on every comma
has the fields `a` and the empty string, so the empty column name is first
matched at position 1, yet `get_col_index` signals that it was not found. -/
theorem get_col_index_misses_final_empty_field :
    split_commas "a,".toList = ["a".toList, []]
    ∧ first_match [] (split_commas "a,".toList) = some 1
    ∧ get_col_index "a,".toList [] = none := by
  decide

/-- C3 (evaluation at the failing input): `get_fields` of the line `a,b,`,
which ends with a comma, has the two fields `a` and `b`; its last field is `b`,
not the empty string. -/
theorem get_fields_trailing_comma :
    get_fields "a,b,".toList = ["a".toList, "b".toList]
    ∧ (get_fields "a,b,".toList).getLast? ≠ some [] := by
  decide

/-- C4 (evaluation at the failing input): `get_fields` of the empty line is
the empty sequence, not the one-element sequence holding the empty line. -/
theorem get_fields_empty_line :
    get_fields [] = [] ∧ get_fields [] ≠ [[]] := by
  decide

/-- C5: for every non-empty line that does not end with a comma, `get_fields`
returns the substrings between consecutive commas, empty ones included: it is
the splitting on every comma, it has (number of commas) + 1 fields, no field
contains a comma, joining the fields with commas gives the line back, and it
is the only comma-free sequence of fields that joins to the line. -/
theorem get_fields_preserves_empty_fields (L : Str) (hne : L ≠ [])
    (hlast : L.getLast? ≠ some ',') :
    get_fields L = split_commas L
    ∧ (get_fields L).length = count_commas L + 1
    ∧ (∀ f ∈ get_fields L, ',' ∉ f)
    ∧ join_commas (get_fields L) = L
    ∧ (∀ fs : List Str, (∀ f ∈ fs, ',' ∉ f) → join_commas fs = L → fs = get_fields L) := by
  have e : get_fields L = split_commas L := by
    rw [get_fields_eq_scan, scan_fields_eq_split L hne hlast]
  rw [e]
  refine ⟨rfl, split_commas_length L, split_commas_no_comma L, join_split_commas L, ?_⟩
  intro fs hfs hjoin
  have hfne : fs ≠ [] := by
    rintro rfl
    exact hne hjoin.symm
  rw [← hjoin, split_join_commas fs hfne hfs]

/-- C5 at the line `a,,c`: the three fields `a`, the empty string and `c`. -/
theorem get_fields_preserves_empty_fields_witness :
    get_fields "a,,c".toList = ["a".toList, [], "c".toList]
    ∧ (get_fields "a,,c".toList).length = count_commas "a,,c".toList + 1
    ∧ join_commas (get_fields "a,,c".toList) = "a,,c".toList :=
  have h := get_fields_preserves_empty_fields "a,,c".toList (by decide) (by decide)
  ⟨h.1.trans (by decide), h.2.1, h.2.2.2.1⟩

/-- C6: for every non-empty sequence of fields, `construct_line` returns the
fields in order joined by single commas, with no comma after the final field,
followed by exactly one newline. -/
theorem construct_line_joins_fields (data : List Str) (h : data ≠ []) :
    construct_line data = some (join_commas data ++ ['\n'])
    ∧ construct_line data = some ([','].intercalate data ++ ['\n']) := by
  rw [← join_commas_eq_intercalate]
  exact ⟨construct_line_eq data h, construct_line_eq data h⟩

/-- C6 at the fields `a`, the empty string and `c`: the line `a,,c⏎`. -/
theorem construct_line_joins_fields_witness :
    construct_line ["a".toList, [], "c".toList] = some "a,,c\n".toList :=
  (construct_line_joins_fields ["a".toList, [], "c".toList] (by decide)).1.trans (by decide)

/-- C7: for every non-empty line `L`, building the line from the fields of `L`
gives `L` with its trailing comma removed (when `L` ends with a comma) followed
by one newline; in particular it gives `L` followed by a newline when `L` does
not end with a comma. -/
theorem split_then_build (L : Str) (hne : L ≠ []) :
    construct_line (get_fields L)
      = some ((if L.getLast? = some ',' then L.dropLast else L) ++ ['\n'])
    ∧ (L.getLast? ≠ some ',' → construct_line (get_fields L) = some (L ++ ['\n'])) := by
  have hno : L.getLast? ≠ some ',' →
      construct_line (get_fields L) = some (L ++ ['\n']) := by
    intro hlast
    rw [get_fields_eq_scan, scan_fields_eq_split L hne hlast,
      construct_line_eq _ (split_commas_ne_nil L), join_split_commas]
  refine ⟨?_, hno⟩
  by_cases hlast : L.getLast? = some ','
  · have hL : L.dropLast ++ [','] = L := List.dropLast_append_getLast? ',' hlast
    rw [if_pos hlast, get_fields_eq_scan]
    conv_lhs => rw [← hL]
    rw [scan_fields_append_comma, construct_line_eq _ (split_commas_ne_nil _),
      join_split_commas]
  · rw [if_neg hlast]
    exact hno hlast

/-- C7 at the lines `a,b,` and `a,,c`. -/
theorem split_then_build_witness :
    construct_line (get_fields "a,b,".toList) = some "a,b\n".toList
    ∧ construct_line (get_fields "a,,c".toList) = some "a,,c\n".toList :=
  ⟨(split_then_build "a,b,".toList (by decide)).1.trans (by decide),
   (split_then_build "a,,c".toList (by decide)).2 (by decide)⟩

/-- C8 (evaluation at the failing input): the line `,` has the single empty
field; the line built from it is a lone newline; with the newline removed
nothing is left, and `get_fields` of that is the empty sequence, not the
sequence holding one empty field. -/
theorem split_build_split_loses_field :
    get_fields [','] = [[]]
    ∧ construct_line (get_fields [',']) = some ['\n']
    ∧ get_fields (['\n'].dropLast) = []
    ∧ get_fields (['\n'].dropLast) ≠ get_fields [','] := by
  decide

/-- C9 (evaluation at the failing input): the empty row has as many commas as
the header `a`, so it passes the field-count check, yet `get_fields` of it is
the empty sequence; the run on `a⏎⏎` then indexes the empty vector, which is
undefined. -/
theorem field_count_check_admits_empty_row :
    count_commas [] + 1 = count_commas "a".toList + 1
    ∧ get_fields [] = []
    ∧ vector_assign (get_fields []) 0 "v".toList = none
    ∧ construct_line (get_fields []) = none
    ∧ run "a\n\n".toList "a".toList "v".toList = none := by
  decide

/-- C10 (evaluation at the failing input): on the input `a,b⏎x,⏎y⏎` with
column `b` the column is found at position 1 and the second row `y` has fewer
commas than the header, but the first row `x,` passes the field-count check
with the single field `x`, so the assignment at position 1 is undefined and
the run never reaches the report of the second row. -/
theorem mismatch_after_short_row_not_reported :
    get_col_index "a,b".toList "b".toList = some 1
    ∧ count_commas "x,".toList = count_commas "a,b".toList
    ∧ count_commas "y".toList ≠ count_commas "a,b".toList
    ∧ get_fields "x,".toList = ["x".toList]
    ∧ vector_assign (get_fields "x,".toList) 1 "v".toList = none
    ∧ run "a,b\nx,\ny\n".toList "b".toList "v".toList = none := by
  decide

/-- C11: when the argument count is wrong, or the input file is missing, lacks
the extension `.csv` or has zero bytes, or the requested column is not found
in the header, the run ends with the output path never opened. In the
zero-byte case of an existing `.csv` file it prints `input file missing` to
standard output; when the column is not found in the header of a file that was
opened it prints `column name doesn't exist in the input file` to standard
output and nothing to the error stream. A column name that equals no field of
the header split on every comma is not found. -/
theorem output_untouched_until_column_resolved (env : Env) (argv0 : Str) (args : List Str)
    (h : args.length ≠ 4 ∨ ∃ f c v o, args = [f, c, v, o] ∧
      (env.fs_exists f = false ∨ env.path_extension f ≠ ".csv".toList
        ∨ env.file_content f = []
        ∨ get_col_index (header_line (env.file_content f)) c = none)) :
    (∃ out, main env argv0 args = some out ∧ out.output_file = none)
    ∧ (∀ f c v o, args = [f, c, v, o] → env.fs_exists f = true →
        env.path_extension f = ".csv".toList → env.file_content f = [] →
        main env argv0 args = some ⟨"input file missing\n".toList, [], none, 0⟩)
    ∧ (∀ f c v o, args = [f, c, v, o] → env.fs_exists f = true →
        env.path_extension f = ".csv".toList → env.file_content f ≠ [] →
        env.ifstream_opens f = true →
        get_col_index (header_line (env.file_content f)) c = none →
        main env argv0 args
          = some ⟨"column name doesn't exist in the input file\n".toList, [], none, 0⟩)
    ∧ (∀ H c : Str, c ∉ split_commas H → get_col_index H c = none) := by
  have key : ∀ f c v o, env.fs_exists f = true → env.path_extension f = ".csv".toList →
      env.file_content f ≠ [] → env.ifstream_opens f = true →
      get_col_index (header_line (env.file_content f)) c = none →
      main env argv0 [f, c, v, o]
        = some ⟨"column name doesn't exist in the input file\n".toList, [], none, 0⟩ := by
    intro f c v o hx hp hne hi hcol
    rw [main_eq_main_on_lines env argv0 f c v o hx hp hne hi,
      ← header_line_eq_head _ hne]
    simp only [main_on_lines, hcol]
  refine ⟨?_, ?_, ?_, get_col_index_eq_none_of_not_mem⟩
  · rcases h with hlen | ⟨f, c, v, o, rfl, hcase⟩
    · exact ⟨_, main_usage env argv0 args hlen, rfl⟩
    · by_cases hx : env.fs_exists f = true
      · by_cases hp : env.path_extension f = ".csv".toList
        · by_cases hne : env.file_content f = []
          · exact ⟨_, main_empty_file env argv0 f c v o hx hp hne, rfl⟩
          · by_cases hi : env.ifstream_opens f = true
            · have hcol : get_col_index (header_line (env.file_content f)) c = none := by
                rcases hcase with h1 | h1 | h1 | h1
                · rw [hx] at h1; exact absurd h1 (by simp)
                · exact absurd hp h1
                · exact absurd h1 hne
                · exact h1
              exact ⟨_, key f c v o hx hp hne hi hcol, rfl⟩
            · exact ⟨_, main_open_failure env argv0 f c v o hx hp hne (by simpa using hi), rfl⟩
        · exact ⟨_, main_wrong_input env argv0 f c v o (Or.inr hp), rfl⟩
      · exact ⟨_, main_wrong_input env argv0 f c v o (Or.inl (by simpa using hx)), rfl⟩
  · rintro f c v o rfl hx hp hne
    exact main_empty_file env argv0 f c v o hx hp hne
  · rintro f c v o rfl hx hp hne hi hcol
    exact key f c v o hx hp hne hi hcol

/-- C11 on the scenario of the specification: the column `height` is absent
from the header `name,age`. -/
theorem output_untouched_until_column_resolved_witness :
    get_col_index (header_line "name,age\nann,30\n".toList) "height".toList = none
    ∧ ∃ out, run "name,age\nann,30\n".toList "height".toList "99".toList = some out
        ∧ out.output_file = none :=
  ⟨by decide,
   (output_untouched_until_column_resolved (env_of "name,age\nann,30\n".toList)
      "tool".toList ["in.csv".toList, "height".toList, "99".toList, "out.csv".toList]
      (Or.inr ⟨_, _, _, _, rfl, Or.inr (Or.inr (Or.inr (by decide)))⟩)).1⟩

/-- C13: for every column name, the empty one included, `get_col_index` of the
empty header signals that the column was not found. -/
theorem get_col_index_empty_header (c : Str) : get_col_index [] c = none := by
  rw [get_col_index_eq_first_match, Option.map_eq_none']
  rfl

/-- C14 (evaluation at the failing input): on the input `a⏎⏎` with column `a`
the column is found and the empty row has as many commas as the header, so the
run reaches the assignment `data[0] = new_value` on the empty vector
`get_fields("")`: it is undefined and returns no exit status. -/
theorem run_undefined_on_empty_row :
    get_col_index (header_line "a\n\n".toList) "a".toList = some 0
    ∧ scan_lines "a\n\n".toList = ["a".toList, []]
    ∧ count_commas [] + 1 = count_commas (header_line "a\n\n".toList) + 1
    ∧ vector_assign (get_fields []) 0 "v".toList = none
    ∧ main (env_of "a\n\n".toList) "tool".toList
        ["in.csv".toList, "a".toList, "v".toList, "out.csv".toList] = none := by
  decide

/-- C15 (evaluation at the failing input): for the header `a,b` and the column
`b` the index is 1, and the row `x,` has as many commas as the header, yet
`get_fields` of the row has the single field `x`: the index 1 is not less than
its length, and the assignment at that index is undefined. -/
theorem substitution_index_out_of_bounds :
    get_col_index "a,b".toList "b".toList = some 1
    ∧ count_commas "x,".toList = count_commas "a,b".toList
    ∧ (get_fields "x,".toList).length = 1
    ∧ ¬ ((1 : Int).toNat < (get_fields "x,".toList).length)
    ∧ vector_assign (get_fields "x,".toList) 1 "v".toList = none := by
  decide

/-- C12 (counterexample): on the input `a⏎b`, which is non-empty and does not
end with a newline, with column `a` and a value `x⏎` that ends with a newline,
the row is written as `x⏎⏎`: the line written ends with two newline
characters. -/
theorem written_row_ends_with_two_newlines :
    "a\nb".toList ≠ [] ∧ "a\nb".toList.getLast? ≠ some '\n'
    ∧ vector_assign (get_fields "b".toList) 0 "x\n".toList = some ["x\n".toList]
    ∧ construct_line ["x\n".toList] = some "x\n\n".toList
    ∧ "x\n\n".toList.getLast? = some '\n'
    ∧ "x\n\n".toList.dropLast.getLast? = some '\n'
    ∧ run "a\nb".toList "a".toList "x\n".toList
        = some ⟨[], [], some "a\nx\n\n".toList, 0⟩ := by
  decide

/-- C12 (amended): for every non-empty input text `T` that does not end with a
newline, the runs on `T` and on `T` followed by a newline, with the same
column, value and output path, have the same result (output text and
messages); the header line contains no newline and is written followed by
one; and in every run that leaves an output text, the text is the header line
followed by a newline and then, for the rows before the one at which the run
stopped, the rebuilt row followed by a newline, where the rebuilt row does not
end with a newline whenever the value does not: each line written then ends
with exactly one newline character. -/
theorem line_termination_independent_of_final_newline (env : Env)
    (argv0 f c v o T : Str) (hne : T ≠ []) (hlast : T.getLast? ≠ some '\n') :
    main (set_content env T) argv0 [f, c, v, o]
      = main (set_content env (T ++ ['\n'])) argv0 [f, c, v, o]
    ∧ '\n' ∉ header_line T
    ∧ (∀ res out, main (set_content env T) argv0 [f, c, v, o] = some res →
        res.output_file = some out →
        ∃ (i : Int) (k : Nat), get_col_index (header_line T) c = some i
          ∧ k ≤ (scan_lines T).tail.length
          ∧ out = (header_line T ++ ['\n'])
              ++ (((scan_lines T).tail.take k).map
                    (fun L => rebuilt_row i v L ++ ['\n'])).flatten
          ∧ (v.getLast? ≠ some '\n' → ∀ L ∈ (scan_lines T).tail.take k,
              (rebuilt_row i v L ++ ['\n']).getLast? = some '\n'
              ∧ (rebuilt_row i v L ++ ['\n']).dropLast.getLast? ≠ some '\n')) := by
  have hne2 : T ++ ['\n'] ≠ [] := by simp
  refine ⟨?_, header_line_no_newline T, ?_⟩
  · by_cases hx : env.fs_exists f = true
    · by_cases hp : env.path_extension f = ".csv".toList
      · by_cases hi : env.ifstream_opens f = true
        · rw [main_eq_main_on_lines (set_content env T) argv0 f c v o hx hp hne hi,
            main_eq_main_on_lines (set_content env (T ++ ['\n'])) argv0 f c v o hx hp hne2 hi]
          show main_on_lines (env.ofstream_opens o) ((scan_lines T).headD [])
              ((scan_lines T).tail) c v
            = main_on_lines (env.ofstream_opens o) ((scan_lines (T ++ ['\n'])).headD [])
              ((scan_lines (T ++ ['\n'])).tail) c v
          rw [scan_lines_append_newline T hne hlast]
        · have hi2 : env.ifstream_opens f = false := by simpa using hi
          rw [main_open_failure (set_content env T) argv0 f c v o hx hp hne hi2,
            main_open_failure (set_content env (T ++ ['\n'])) argv0 f c v o hx hp hne2 hi2]
      · rw [main_wrong_input (set_content env T) argv0 f c v o (Or.inr hp),
          main_wrong_input (set_content env (T ++ ['\n'])) argv0 f c v o (Or.inr hp)]
    · have hx2 : env.fs_exists f = false := by simpa using hx
      rw [main_wrong_input (set_content env T) argv0 f c v o (Or.inl hx2),
        main_wrong_input (set_content env (T ++ ['\n'])) argv0 f c v o (Or.inl hx2)]
  · intro res out hres hout
    by_cases hx : env.fs_exists f = true
    · by_cases hp : env.path_extension f = ".csv".toList
      · by_cases hi : env.ifstream_opens f = true
        · rw [main_eq_main_on_lines (set_content env T) argv0 f c v o hx hp hne hi] at hres
          have hres2 : main_on_lines (env.ofstream_opens o) (header_line T)
              ((scan_lines T).tail) c v = some res := by
            rw [header_line_eq_head T hne]
            exact hres
          unfold main_on_lines at hres2
          split at hres2
          · next i hcol =>
            split at hres2
            · simp only [Option.some.injEq] at hres2
              rw [← hres2] at hout
              exact absurd hout (by simp)
            · obtain ⟨k, hk, hk2⟩ := write_rows_output _ _ _ _ _ _ hres2
              rw [hout, Option.some.injEq] at hk2
              refine ⟨i, k, hcol, hk, hk2, ?_⟩
              intro hv L hL
              have hLrow : L ∈ scan_lines T :=
                List.mem_of_mem_tail (List.mem_of_mem_take hL)
              refine ⟨List.getLast?_concat _, ?_⟩
              rw [List.dropLast_concat]
              exact rebuilt_row_getLast L v i (scan_lines_no_newline T L hLrow) hv
          · simp only [Option.some.injEq] at hres2
            rw [← hres2] at hout
            exact absurd hout (by simp)
        · have hi2 : env.ifstream_opens f = false := by simpa using hi
          rw [main_open_failure (set_content env T) argv0 f c v o hx hp hne hi2,
            Option.some.injEq] at hres
          rw [← hres] at hout
          exact absurd hout (by simp)
      · rw [main_wrong_input (set_content env T) argv0 f c v o (Or.inr hp),
          Option.some.injEq] at hres
        rw [← hres] at hout
        exact absurd hout (by simp)
    · have hx2 : env.fs_exists f = false := by simpa using hx
      rw [main_wrong_input (set_content env T) argv0 f c v o (Or.inl hx2),
        Option.some.injEq] at hres
      rw [← hres] at hout
      exact absurd hout (by simp)

/-- C12 (amended) at the input `name,age⏎ann,30⏎bob,25` without a final
newline: the run gives the same result as on the input with the final
newline, the output of scenario 1. -/
theorem line_termination_independent_of_final_newline_witness :
    "name,age\nann,30\nbob,25".toList ≠ []
    ∧ "name,age\nann,30\nbob,25".toList.getLast? ≠ some '\n'
    ∧ run "name,age\nann,30\nbob,25".toList "age".toList "99".toList
        = some ⟨[], [], some "name,age\nann,99\nbob,99\n".toList, 0⟩
    ∧ run "name,age\nann,30\nbob,25".toList "age".toList "99".toList
        = run ("name,age\nann,30\nbob,25".toList ++ ['\n']) "age".toList "99".toList :=
  ⟨by decide, by decide, by decide,
   (line_termination_independent_of_final_newline (env_of []) "tool".toList
      "in.csv".toList "age".toList "99".toList "out.csv".toList
      "name,age\nann,30\nbob,25".toList (by decide) (by decide)).1⟩

end Tool
